import Mathlib

/-!
Verification of the featureseek core: barcode resolution (src/barcodes.rs),
count aggregation (src/counts.rs) and the output path of main.rs, shallowly
embedded over association lists (standing for the Rust hash maps) and lists
of byte values (standing for the Rust byte slices and arrays).
-/

set_option autoImplicit false

/-- Fixed barcode length, `BCLENGTH` in main.rs. -/
def BCLENGTH : Nat := 15

/-- A barcode: a byte sequence, each byte a `Nat` below 256. -/
abbrev Barcode := List Nat

/-- A cell code byte sequence (`CellCode` in main.rs). -/
abbrev CellCode := List Nat

/-- First-match lookup in an association list, the model of `HashMap::get`. -/
def lookupA {K V : Type} [DecidableEq K] : List (K × V) → K → Option V
  | [], _ => none
  | (k, v) :: t, k' => if k = k' then some v else lookupA t k'

/-- Insert-or-overwrite in an association list, the model of `HashMap::insert`. -/
def insertA {K V : Type} [DecidableEq K] : List (K × V) → K → V → List (K × V)
  | [], k, v => [(k, v)]
  | (k', v') :: t, k, v => if k' = k then (k, v) :: t else (k', v') :: insertA t k v

/-- `BarcodeCounts<T>` of counts.rs: a map from `T` to a read count. -/
abbrev BarcodeCounts (T : Type) := List (T × Nat)

/-- `CellCounts<T>` of counts.rs: a map from `CellCode` to `BarcodeCounts<T>`. -/
abbrev CellCounts (T : Type) := List (CellCode × BarcodeCounts T)

/-- `BarcodeCounts::count`: add a count for the provided id // counts.rs lines 67-73. -/
def BarcodeCounts.count {T : Type} [DecidableEq T] : BarcodeCounts T → T → BarcodeCounts T
  | [], id => [(id, 1)]
  | (k, v) :: t, id => if k = id then (k, v + 1) :: t else (k, v) :: BarcodeCounts.count t id

/-- `BarcodeCounts::filter_hits`: the entries with more than `min_reads` counts. -/
def BarcodeCounts.filter_hits {T : Type} (m : BarcodeCounts T) (min_reads : Nat) :
    BarcodeCounts T :=
  m.filter (fun e => decide (min_reads < e.2))

/-- `Counts::count_barcode` / `count_unknown` on the nested map:
`self.0.entry(cellcode).or_default().count(id)`. -/
def CellCounts.count_barcode {T : Type} [DecidableEq T] :
    CellCounts T → CellCode → T → CellCounts T
  | [], c, id => [(c, [(id, 1)])]
  | (k, m) :: t, c, id =>
    if k = c then (k, BarcodeCounts.count m id) :: t
    else (k, m) :: CellCounts.count_barcode t c id

/-- The body of the `for_each` in `CellCounts::summary`:
`let c = result.entry(id).or_insert((0,0)); c.0 += count; c.1 += 1`. -/
def summaryAdd {T : Type} [DecidableEq T] :
    List (T × (Nat × Nat)) → T → Nat → List (T × (Nat × Nat))
  | [], id, cnt => [(id, (cnt, 1))]
  | (k, p) :: t, id, cnt =>
    if k = id then (k, (p.1 + cnt, p.2 + 1)) :: t
    else (k, p) :: summaryAdd t id cnt

/-- `CellCounts::summary` (counts.rs lines 91-102): flat-map `filter_hits` over all
cells' counters and accumulate (total, cell count) per id. -/
def CellCounts.summary {T : Type} [DecidableEq T] (s : CellCounts T) (min_reads : Nat) :
    List (T × (Nat × Nat)) :=
  (s.map (fun e => e.2.filter_hits min_reads)).flatten.foldl
    (fun res e => summaryAdd res e.1 e.2) []

/-- The reads counted for key `r` in one cell's counter: the looked-up count, `0`
when the cell has no entry for `r` (an absent entry was never counted). -/
def readsOf {T : Type} [DecidableEq T] (m : BarcodeCounts T) (r : T) : Nat :=
  (lookupA m r).getD 0

theorem lookupA_summaryAdd {T : Type} [DecidableEq T]
    (res : List (T × (Nat × Nat))) (id r : T) (cnt : Nat) :
    lookupA (summaryAdd res id cnt) r =
      if id = r then
        some (((lookupA res id).getD (0, 0)).1 + cnt, ((lookupA res id).getD (0, 0)).2 + 1)
      else lookupA res r := by
  induction res with
  | nil =>
    by_cases hid : id = r <;> simp [summaryAdd, lookupA, hid]
  | cons head t ih =>
    obtain ⟨k, p⟩ := head
    by_cases hk : k = id
    · subst hk
      by_cases hr : k = r <;> simp [summaryAdd, lookupA, hr]
    · by_cases hr : k = r
      · have hid : ¬id = r := fun h => hk (hr.trans h.symm)
        have hid2 : ¬r = id := fun h => hid h.symm
        simp [summaryAdd, lookupA, hk, hr, hid, hid2]
      · simp [summaryAdd, lookupA, hk, hr, ih]

theorem lookupA_foldl_summaryAdd {T : Type} [DecidableEq T]
    (hits : List (T × Nat)) (res : List (T × (Nat × Nat))) (r : T) :
    lookupA (hits.foldl (fun a e => summaryAdd a e.1 e.2) res) r =
      if (hits.filter (fun e => decide (e.1 = r))).isEmpty then lookupA res r
      else
        some (((lookupA res r).getD (0, 0)).1 +
                ((hits.filter (fun e => decide (e.1 = r))).map (fun e => e.2)).sum,
              ((lookupA res r).getD (0, 0)).2 +
                (hits.filter (fun e => decide (e.1 = r))).length) := by
  induction hits generalizing res with
  | nil => simp [List.filter]
  | cons head t ih =>
    obtain ⟨id, cnt⟩ := head
    rw [List.foldl_cons, ih (summaryAdd res id cnt)]
    by_cases hid : id = r
    · subst hid
      rw [lookupA_summaryAdd, if_pos rfl]
      have hfc : List.filter (fun e => decide (e.1 = id)) ((id, cnt) :: t) =
          (id, cnt) :: List.filter (fun e => decide (e.1 = id)) t := by
        simp [List.filter_cons]
      rw [hfc]
      by_cases hrel : (List.filter (fun e => decide (e.1 = id)) t).isEmpty = true
      · rw [List.isEmpty_iff] at hrel
        simp [hrel]
      · rw [if_neg hrel, if_neg (by simp)]
        simp only [List.map_cons, List.sum_cons, List.length_cons, Option.getD_some,
          Option.some.injEq, Prod.mk.injEq]
        omega
    · rw [lookupA_summaryAdd, if_neg hid]
      have hfc : List.filter (fun e => decide (e.1 = r)) ((id, cnt) :: t) =
          List.filter (fun e => decide (e.1 = r)) t := by
        simp [List.filter_cons, hid]
      rw [hfc]

/-- The flat list of qualifying (id, count) pairs that `CellCounts::summary`
aggregates, restricted to id `r`. -/
theorem lookupA_summary {T : Type} [DecidableEq T] (s : CellCounts T) (min_reads : Nat) (r : T) :
    lookupA (s.summary min_reads) r =
      if (((s.map (fun e => e.2.filter_hits min_reads)).flatten).filter
            (fun e => decide (e.1 = r))).isEmpty then none
      else
        some (((((s.map (fun e => e.2.filter_hits min_reads)).flatten).filter
                  (fun e => decide (e.1 = r))).map (fun e => e.2)).sum,
              (((s.map (fun e => e.2.filter_hits min_reads)).flatten).filter
                  (fun e => decide (e.1 = r))).length) := by
  have h := lookupA_foldl_summaryAdd
    ((s.map (fun e => e.2.filter_hits min_reads)).flatten) ([] : List (T × (Nat × Nat))) r
  simpa [CellCounts.summary, lookupA] using h

theorem filter_hits_key_absent {T : Type} [DecidableEq T]
    (m : BarcodeCounts T) (min_reads : Nat) (r : T) (h : r ∉ m.map Prod.fst) :
    (m.filter_hits min_reads).filter (fun e => decide (e.1 = r)) = [] := by
  rw [List.filter_eq_nil_iff]
  intro e he
  have hm : e ∈ m := List.mem_of_mem_filter he
  have : e.1 ∈ m.map Prod.fst := List.mem_map_of_mem Prod.fst hm
  simp only [decide_eq_true_eq]
  intro hc
  exact h (hc ▸ this)

theorem filter_hits_at_key {T : Type} [DecidableEq T]
    (m : BarcodeCounts T) (min_reads : Nat) (r : T) (hnd : (m.map Prod.fst).Nodup) :
    (m.filter_hits min_reads).filter (fun e => decide (e.1 = r)) =
      if min_reads < readsOf m r then [(r, readsOf m r)] else [] := by
  induction m with
  | nil => simp [BarcodeCounts.filter_hits, readsOf, lookupA]
  | cons e t ih =>
    obtain ⟨k, v⟩ := e
    simp only [List.map_cons, List.nodup_cons] at hnd
    by_cases hk : k = r
    · subst hk
      have htail : (BarcodeCounts.filter_hits t min_reads).filter
          (fun e => decide (e.1 = k)) = [] :=
        filter_hits_key_absent t min_reads k hnd.1
      have hread : readsOf ((k, v) :: t) k = v := by simp [readsOf, lookupA]
      rw [hread]
      simp only [BarcodeCounts.filter_hits] at htail ⊢
      by_cases hv : min_reads < v
      · rw [if_pos hv, List.filter_cons, if_pos (by simpa using hv), List.filter_cons,
          if_pos (by simp), htail]
      · rw [if_neg hv, List.filter_cons, if_neg (by simpa using hv), htail]
    · simp only [BarcodeCounts.filter_hits, List.filter_cons] at ih ⊢
      have hread : readsOf ((k, v) :: t) r = readsOf t r := by
        simp [readsOf, lookupA, hk]
      rw [hread]
      by_cases hv : min_reads < v
      · simpa [hv, List.filter_cons, hk] using ih hnd.2
      · simpa [hv] using ih hnd.2

theorem flatten_map_ite {A B : Type} (ls : List A) (P : A → Bool) (g : A → B) :
    (ls.map (fun e => if P e then [g e] else [])).flatten = (ls.filter P).map g := by
  induction ls with
  | nil => rfl
  | cons e t ih => by_cases hP : P e <;> simp [List.filter_cons, hP, ih]

/-- C3: the summary maps `r` to (sum of the per-cell counts over the cells whose
count for `r` strictly exceeds `min_reads`, number of such cells), and has no entry
for `r` when no cell qualifies. Hypotheses: the hash-map states have distinct outer
(cell) keys and distinct inner keys, as Rust `HashMap`s do. -/
theorem summary_characterization {T : Type} [DecidableEq T]
    (s : CellCounts T) (min_reads : Nat) (r : T)
    (_hout : (s.map Prod.fst).Nodup)
    (hin : ∀ e ∈ s, (e.2.map Prod.fst).Nodup) :
    lookupA (s.summary min_reads) r =
      if (s.filter (fun e => decide (min_reads < readsOf e.2 r))).isEmpty = true then none
      else
        some (((s.filter (fun e => decide (min_reads < readsOf e.2 r))).map
                 (fun e => readsOf e.2 r)).sum,
              (s.filter (fun e => decide (min_reads < readsOf e.2 r))).length) := by
  rw [lookupA_summary]
  have hflat : ((s.map (fun e => e.2.filter_hits min_reads)).flatten).filter
      (fun e => decide (e.1 = r)) =
      (s.filter (fun e => decide (min_reads < readsOf e.2 r))).map
        (fun e => (r, readsOf e.2 r)) := by
    rw [List.filter_flatten, List.map_map]
    have hcong : s.map ((fun l => List.filter (fun e => decide (e.1 = r)) l) ∘
          (fun e => e.2.filter_hits min_reads)) =
        s.map (fun e =>
          if decide (min_reads < readsOf e.2 r) then [(r, readsOf e.2 r)] else []) := by
      apply List.map_congr_left
      intro e he
      simp only [Function.comp]
      rw [filter_hits_at_key e.2 min_reads r (hin e he)]
      by_cases h : min_reads < readsOf e.2 r <;> simp [h]
    rw [hcong, flatten_map_ite]
  rw [hflat]
  rcases hq : s.filter (fun e => decide (min_reads < readsOf e.2 r)) with _ | ⟨q0, qt⟩
  · simp [hq]
  · simp [hq, List.map_map, Function.comp_def]

/-- C10: every pair stored in a summary has a strictly positive total and a
strictly positive cell count — each entry is created by a cell whose count strictly
exceeds the (nonnegative) threshold — so the `count / cells` divisions in
`gen_table` and `passes` never divide by zero. -/
theorem summary_entry_pos {T : Type} [DecidableEq T]
    (s : CellCounts T) (min_reads : Nat) (r : T) (total cells : Nat)
    (h : lookupA (s.summary min_reads) r = some (total, cells)) :
    1 ≤ total ∧ 1 ≤ cells := by
  rw [lookupA_summary] at h
  rcases hrel : ((s.map (fun e => e.2.filter_hits min_reads)).flatten).filter
      (fun e => decide (e.1 = r)) with _ | ⟨e0, rest⟩
  · rw [hrel] at h
    simp at h
  · rw [hrel, if_neg (by simp)] at h
    have he0 : e0 ∈ ((s.map (fun e => e.2.filter_hits min_reads)).flatten).filter
        (fun e => decide (e.1 = r)) := by
      rw [hrel]; exact List.mem_cons_self e0 rest
    have he0' : e0 ∈ (s.map (fun e => e.2.filter_hits min_reads)).flatten :=
      List.mem_of_mem_filter he0
    obtain ⟨m, hm, he0m⟩ := List.mem_flatten.mp he0'
    obtain ⟨c, _, hcm⟩ := List.mem_map.mp hm
    have hcnt : min_reads < e0.2 := by
      have := (List.mem_filter.mp (hcm ▸ he0m : e0 ∈ c.2.filter_hits min_reads)).2
      simpa using this
    simp only [List.map_cons, List.sum_cons, List.length_cons, Option.some.injEq,
      Prod.mk.injEq] at h
    omega

/-- Witness for C3 at a concrete state: cell `[0]` has 3 reads of reference 0 and
2 of reference 1; cell `[1]` has 1 read of reference 0; at threshold 2, only the
first cell qualifies for reference 0. -/
theorem summary_characterization_witness :
    ((([([0], [(0, 3), (1, 2)]), ([1], [(0, 1)])] : CellCounts Nat).map Prod.fst).Nodup ∧
      ∀ e ∈ ([([0], [(0, 3), (1, 2)]), ([1], [(0, 1)])] : CellCounts Nat),
        (e.2.map Prod.fst).Nodup) ∧
    lookupA (CellCounts.summary [([0], [(0, 3), (1, 2)]), ([1], [(0, 1)])] 2) 0 =
      some (3, 1) :=
  ⟨⟨by decide, by decide⟩,
    (summary_characterization [([0], [(0, 3), (1, 2)]), ([1], [(0, 1)])] 2 0
      (by decide) (by decide)).trans (by decide)⟩

/-- Witness for C10 at a concrete state: one cell with 2 reads of reference 0,
threshold 1; the summary entry is (2, 1) and both components are positive. -/
theorem summary_entry_pos_witness :
    lookupA (CellCounts.summary [([0], [(0, 2)])] 1) 0 = some (2, 1) ∧
      (1 ≤ 2 ∧ 1 ≤ 1) :=
  ⟨by decide, summary_entry_pos [([0], [(0, 2)])] 1 0 2 1 (by decide)⟩

/-- The per-cell count recorded in a `CellCounts` state for cell `c` and key `r`:
`0` when the cell or the key is absent. -/
def cellReads {T : Type} [DecidableEq T] (s : CellCounts T) (c : CellCode) (r : T) : Nat :=
  readsOf ((lookupA s c).getD []) r

theorem lookupA_count_barcode {T : Type} [DecidableEq T]
    (s : CellCounts T) (c : CellCode) (id : T) (c' : CellCode) :
    lookupA (s.count_barcode c id) c' =
      if c = c' then some (BarcodeCounts.count ((lookupA s c).getD []) id)
      else lookupA s c' := by
  induction s with
  | nil =>
    by_cases hc : c = c' <;> simp [CellCounts.count_barcode, lookupA, hc, BarcodeCounts.count]
  | cons head t ih =>
    obtain ⟨k, m⟩ := head
    by_cases hk : k = c
    · subst hk
      by_cases hc : k = c' <;> simp [CellCounts.count_barcode, lookupA, hc]
    · by_cases hc : k = c'
      · have hcc : ¬c = c' := fun h => hk (hc.trans h.symm)
        have hcc2 : ¬c' = c := fun h => hcc h.symm
        simp [CellCounts.count_barcode, lookupA, hk, hc, hcc, hcc2]
      · simp [CellCounts.count_barcode, lookupA, hk, hc, ih]

theorem readsOf_count {T : Type} [DecidableEq T] (m : BarcodeCounts T) (id r : T) :
    readsOf (BarcodeCounts.count m id) r =
      readsOf m r + if id = r then 1 else 0 := by
  induction m with
  | nil =>
    by_cases hid : id = r <;> simp [BarcodeCounts.count, readsOf, lookupA, hid]
  | cons head t ih =>
    obtain ⟨k, v⟩ := head
    by_cases hk : k = id
    · subst hk
      by_cases hr : k = r <;> simp [BarcodeCounts.count, readsOf, lookupA, hr]
    · by_cases hr : k = r
      · have hid : ¬id = r := fun h => hk (hr.trans h.symm)
        have hid2 : ¬r = id := fun h => hid h.symm
        simp [BarcodeCounts.count, readsOf, lookupA, hk, hr, hid, hid2]
      · simp only [BarcodeCounts.count, if_neg hk]
        simp only [readsOf, lookupA, if_neg hr]
        exact ih

theorem cellReads_count_barcode {T : Type} [DecidableEq T]
    (s : CellCounts T) (c : CellCode) (id : T) (c' : CellCode) (r : T) :
    cellReads (s.count_barcode c id) c' r =
      cellReads s c' r + if c = c' ∧ id = r then 1 else 0 := by
  unfold cellReads
  rw [lookupA_count_barcode]
  by_cases hc : c = c'
  · subst hc
    rw [if_pos rfl, Option.getD_some, readsOf_count]
    by_cases hid : id = r <;> simp [hid]
  · rw [if_neg hc]
    simp [hc]

/-- The main loop's sequence of `count_barcode` calls, folded over a state. -/
def applyHits {T : Type} [DecidableEq T] (l : List (CellCode × T)) (s : CellCounts T) :
    CellCounts T :=
  l.foldl (fun a e => CellCounts.count_barcode a e.1 e.2) s

/-- The number of occurrences of `a` in `l`. -/
def occCount {A : Type} [DecidableEq A] (l : List A) (a : A) : Nat :=
  (l.filter (fun x => decide (x = a))).length

theorem occCount_cons {A : Type} [DecidableEq A] (b : A) (l : List A) (a : A) :
    occCount (b :: l) a = occCount l a + if b = a then 1 else 0 := by
  by_cases h : b = a <;> simp [occCount, List.filter_cons, h]

theorem occCount_perm {A : Type} [DecidableEq A] {l l' : List A}
    (h : List.Perm l l') (a : A) : occCount l a = occCount l' a :=
  (h.filter _).length_eq

theorem cellReads_applyHits {T : Type} [DecidableEq T]
    (l : List (CellCode × T)) (s : CellCounts T) (c : CellCode) (r : T) :
    cellReads (applyHits l s) c r = cellReads s c r + occCount l (c, r) := by
  induction l generalizing s with
  | nil => simp [applyHits, occCount]
  | cons e t ih =>
    obtain ⟨e1, e2⟩ := e
    rw [applyHits, List.foldl_cons]
    have step := cellReads_count_barcode s e1 e2 c r
    rw [show (List.foldl (fun a e => CellCounts.count_barcode a e.1 e.2)
        (s.count_barcode e1 e2) t) = applyHits t (s.count_barcode e1 e2) from rfl, ih,
      step, occCount_cons]
    simp only [Prod.mk.injEq]
    by_cases h1 : e1 = c
    · subst h1
      by_cases h2 : e2 = r
      · subst h2
        rw [if_pos ⟨rfl, rfl⟩]
        omega
      · rw [if_neg (fun h => h2 h.2)]
        omega
    · rw [if_neg (fun h => h1 h.1)]
      omega

theorem keys_count_barcode {T : Type} [DecidableEq T]
    (s : CellCounts T) (c : CellCode) (id : T) :
    (s.count_barcode c id).map Prod.fst =
      if c ∈ s.map Prod.fst then s.map Prod.fst else s.map Prod.fst ++ [c] := by
  induction s with
  | nil => simp [CellCounts.count_barcode]
  | cons head t ih =>
    obtain ⟨k, m⟩ := head
    by_cases hk : k = c
    · subst hk
      simp [CellCounts.count_barcode]
    · have hck : ¬c = k := fun h => hk h.symm
      by_cases hmem : c ∈ t.map Prod.fst <;>
        simp [CellCounts.count_barcode, hk, hck, hmem, ih]

theorem keys_nodup_count_barcode {T : Type} [DecidableEq T]
    (s : CellCounts T) (c : CellCode) (id : T) (h : (s.map Prod.fst).Nodup) :
    ((s.count_barcode c id).map Prod.fst).Nodup := by
  rw [keys_count_barcode]
  by_cases hmem : c ∈ s.map Prod.fst
  · rwa [if_pos hmem]
  · rw [if_neg hmem]
    exact h.append (List.nodup_singleton c) (by simpa using hmem)

theorem mem_keys_count_barcode {T : Type} [DecidableEq T]
    (s : CellCounts T) (c : CellCode) (id : T) (c' : CellCode) :
    c' ∈ (s.count_barcode c id).map Prod.fst ↔ c' ∈ s.map Prod.fst ∨ c' = c := by
  rw [keys_count_barcode]
  by_cases hmem : c ∈ s.map Prod.fst
  · rw [if_pos hmem]
    constructor
    · exact fun h => Or.inl h
    · rintro (h | h)
      · exact h
      · exact h ▸ hmem
  · rw [if_neg hmem]
    simp

theorem keys_bc_count {T : Type} [DecidableEq T] (m : BarcodeCounts T) (id : T) :
    (BarcodeCounts.count m id).map Prod.fst =
      if id ∈ m.map Prod.fst then m.map Prod.fst else m.map Prod.fst ++ [id] := by
  induction m with
  | nil => simp [BarcodeCounts.count]
  | cons head t ih =>
    obtain ⟨k, v⟩ := head
    by_cases hk : k = id
    · subst hk
      simp [BarcodeCounts.count]
    · have hik : ¬id = k := fun h => hk h.symm
      by_cases hmem : id ∈ t.map Prod.fst <;>
        simp [BarcodeCounts.count, hk, hik, hmem, ih]

theorem keys_nodup_bc_count {T : Type} [DecidableEq T]
    (m : BarcodeCounts T) (id : T) (h : (m.map Prod.fst).Nodup) :
    ((BarcodeCounts.count m id).map Prod.fst).Nodup := by
  rw [keys_bc_count]
  by_cases hmem : id ∈ m.map Prod.fst
  · rwa [if_pos hmem]
  · rw [if_neg hmem]
    exact h.append (List.nodup_singleton id) (by simpa using hmem)

theorem inner_nodup_count_barcode {T : Type} [DecidableEq T]
    (s : CellCounts T) (c : CellCode) (id : T)
    (h : ∀ e ∈ s, (e.2.map Prod.fst).Nodup) :
    ∀ e ∈ s.count_barcode c id, (e.2.map Prod.fst).Nodup := by
  induction s with
  | nil =>
    intro e he
    simp only [CellCounts.count_barcode, List.mem_singleton] at he
    subst he
    simp
  | cons head t ih =>
    obtain ⟨k, m⟩ := head
    intro e he
    by_cases hk : k = c
    · rw [CellCounts.count_barcode, if_pos hk] at he
      rcases List.mem_cons.mp he with h1 | h1
      · subst h1
        exact keys_nodup_bc_count m id (h (k, m) (List.mem_cons_self _ _))
      · exact h e (List.mem_cons_of_mem _ h1)
    · rw [CellCounts.count_barcode, if_neg hk] at he
      rcases List.mem_cons.mp he with h1 | h1
      · subst h1
        exact h (k, m) (List.mem_cons_self _ _)
      · exact ih (fun e' he' => h e' (List.mem_cons_of_mem _ he')) e h1

theorem keys_nodup_applyHits {T : Type} [DecidableEq T]
    (l : List (CellCode × T)) (s : CellCounts T) (h : (s.map Prod.fst).Nodup) :
    ((applyHits l s).map Prod.fst).Nodup := by
  induction l generalizing s with
  | nil => exact h
  | cons e t ih =>
    rw [applyHits, List.foldl_cons]
    exact ih (s.count_barcode e.1 e.2) (keys_nodup_count_barcode s e.1 e.2 h)

theorem inner_nodup_applyHits {T : Type} [DecidableEq T]
    (l : List (CellCode × T)) (s : CellCounts T)
    (h : ∀ e ∈ s, (e.2.map Prod.fst).Nodup) :
    ∀ e ∈ applyHits l s, (e.2.map Prod.fst).Nodup := by
  induction l generalizing s with
  | nil => exact h
  | cons e t ih =>
    rw [applyHits, List.foldl_cons]
    exact ih (s.count_barcode e.1 e.2) (inner_nodup_count_barcode s e.1 e.2 h)

theorem mem_keys_applyHits {T : Type} [DecidableEq T]
    (l : List (CellCode × T)) (s : CellCounts T) (c : CellCode) :
    c ∈ (applyHits l s).map Prod.fst ↔ c ∈ s.map Prod.fst ∨ c ∈ l.map Prod.fst := by
  induction l generalizing s with
  | nil => simp [applyHits]
  | cons e t ih =>
    rw [applyHits, List.foldl_cons]
    rw [show (List.foldl (fun a e => CellCounts.count_barcode a e.1 e.2)
        (s.count_barcode e.1 e.2) t) = applyHits t (s.count_barcode e.1 e.2) from rfl]
    rw [ih, mem_keys_count_barcode]
    simp only [List.map_cons, List.mem_cons]
    tauto

theorem lookupA_eq_of_mem {K V : Type} [DecidableEq K]
    (s : List (K × V)) (k : K) (v : V)
    (hnd : (s.map Prod.fst).Nodup) (h : (k, v) ∈ s) :
    lookupA s k = some v := by
  induction s with
  | nil => cases h
  | cons head t ih =>
    obtain ⟨k', v'⟩ := head
    simp only [List.map_cons, List.nodup_cons] at hnd
    rcases List.mem_cons.mp h with h1 | h1
    · obtain ⟨hk, hv⟩ := Prod.mk.injEq k' v' k v ▸ h1.symm
      rw [lookupA, if_pos hk, hv]
    · have hk : ¬k' = k := by
        intro hk
        exact hnd.1 (hk ▸ List.mem_map_of_mem Prod.fst h1)
      rw [lookupA, if_neg hk]
      exact ih hnd.2 h1

theorem isEmpty_eq_decide_length {A : Type} (L : List A) :
    L.isEmpty = decide (L.length = 0) := by
  cases L <;> simp

theorem keys_filter_comm {K V : Type} (s : List (K × V)) (p : K → Bool) :
    (s.filter (fun e => p e.1)).map Prod.fst = (s.map Prod.fst).filter p := by
  induction s with
  | nil => rfl
  | cons e t ih =>
    by_cases hp : p e.1 <;> simp [List.filter_cons, hp, ih]

/-- The summary of the state built by a sequence of hits, characterised purely by
the multiset of hits: per reference `r`, the qualifying cells are the distinct
cells whose hit count for `r` exceeds the threshold, the total is the sum of those
counts. -/
theorem lookupA_summary_applyHits {T : Type} [DecidableEq T]
    (l : List (CellCode × T)) (min_reads : Nat) (r : T) :
    lookupA ((applyHits l []).summary min_reads) r =
      if (((l.map Prod.fst).dedup).filter
            (fun c => decide (min_reads < occCount l (c, r)))).isEmpty = true then none
      else
        some (((((l.map Prod.fst).dedup).filter
                  (fun c => decide (min_reads < occCount l (c, r)))).map
                 (fun c => occCount l (c, r))).sum,
              (((l.map Prod.fst).dedup).filter
                  (fun c => decide (min_reads < occCount l (c, r)))).length) := by
  have hout : (((applyHits l []).map Prod.fst)).Nodup :=
    keys_nodup_applyHits l [] (by simp)
  have hin : ∀ e ∈ applyHits l [], (e.2.map Prod.fst).Nodup :=
    inner_nodup_applyHits l [] (by simp)
  rw [summary_characterization (applyHits l []) min_reads r hout hin]
  have hmem : ∀ e ∈ applyHits l [], readsOf e.2 r = occCount l (e.1, r) := by
    intro e he
    have hl : lookupA (applyHits l []) e.1 = some e.2 :=
      lookupA_eq_of_mem (applyHits l []) e.1 e.2 hout he
    have := cellReads_applyHits l [] e.1 r
    simp only [cellReads, hl, Option.getD_some] at this
    simpa [cellReads, lookupA, readsOf] using this
  have hfc : (applyHits l []).filter (fun e => decide (min_reads < readsOf e.2 r)) =
      (applyHits l []).filter (fun e => decide (min_reads < occCount l (e.1, r))) := by
    apply List.filter_congr
    intro e he
    rw [hmem e he]
  rw [hfc]
  have hmc : ((applyHits l []).filter
      (fun e => decide (min_reads < occCount l (e.1, r)))).map (fun e => readsOf e.2 r) =
      ((applyHits l []).filter
      (fun e => decide (min_reads < occCount l (e.1, r)))).map (fun e => occCount l (e.1, r)) := by
    apply List.map_congr_left
    intro e he
    exact hmem e (List.mem_of_mem_filter he)
  rw [hmc]
  have hperm : List.Perm ((applyHits l []).map Prod.fst) ((l.map Prod.fst).dedup) := by
    refine (List.perm_ext_iff_of_nodup hout (List.nodup_dedup _)).mpr ?_
    intro c
    rw [List.mem_dedup, mem_keys_applyHits]
    simp
  have hqperm : List.Perm
      (((applyHits l []).map Prod.fst).filter (fun c => decide (min_reads < occCount l (c, r))))
      (((l.map Prod.fst).dedup).filter (fun c => decide (min_reads < occCount l (c, r)))) :=
    hperm.filter _
  have hkf := keys_filter_comm (applyHits l [])
    (fun c => decide (min_reads < occCount l (c, r)))
  have hlen : ((applyHits l []).filter
      (fun e => decide (min_reads < occCount l (e.1, r)))).length =
      (((l.map Prod.fst).dedup).filter (fun c => decide (min_reads < occCount l (c, r)))).length := by
    rw [← hqperm.length_eq, ← hkf, List.length_map]
  have hsum : (((applyHits l []).filter
      (fun e => decide (min_reads < occCount l (e.1, r)))).map (fun e => occCount l (e.1, r))).sum =
      ((((l.map Prod.fst).dedup).filter (fun c => decide (min_reads < occCount l (c, r)))).map
        (fun c => occCount l (c, r))).sum := by
    rw [← (hqperm.map (fun c => occCount l (c, r))).sum_eq, ← hkf, List.map_map]
    rfl
  have hemp : ((applyHits l []).filter
      (fun e => decide (min_reads < occCount l (e.1, r)))).isEmpty =
      (((l.map Prod.fst).dedup).filter
        (fun c => decide (min_reads < occCount l (c, r)))).isEmpty := by
    rw [isEmpty_eq_decide_length, isEmpty_eq_decide_length, hlen]
  rw [hemp, hsum, hlen]

/-- The `Counts` struct of counts.rs lines 15-23. -/
structure Counts where
  cells : CellCounts Nat
  ignored : Nat
  multiple : Nat
  nohit : Nat
  not_whitelisted : Nat
  unknown : CellCounts Barcode

/-- `Counts::default()`: all maps empty, all scalars zero. -/
def Counts.empty : Counts := ⟨[], 0, 0, 0, 0, []⟩

/-- One recorded outcome routed into the aggregation engine by the main loop
(main.rs lines 111-135). -/
inductive Op where
  | hit (cc : CellCode) (pos : Nat)
  | unknownHit (cc : CellCode) (bc : Barcode)
  | nohit
  | multiple
  | ignored
  | not_whitelisted
deriving DecidableEq

/-- Applying one outcome to the counters, per the `Counts` methods of counts.rs. -/
def Counts.apply (cts : Counts) : Op → Counts
  | .hit cc pos => { cts with cells := cts.cells.count_barcode cc pos }
  | .unknownHit cc bc => { cts with unknown := cts.unknown.count_barcode cc bc }
  | .nohit => { cts with nohit := cts.nohit + 1 }
  | .multiple => { cts with multiple := cts.multiple + 1 }
  | .ignored => { cts with ignored := cts.ignored + 1 }
  | .not_whitelisted => { cts with not_whitelisted := cts.not_whitelisted + 1 }

/-- The whole run: fold the recorded outcomes over the empty counters. -/
def Counts.applyAll (ops : List Op) : Counts := ops.foldl Counts.apply Counts.empty

/-- The (cell, reference index) pair recorded by a hit outcome, if any. -/
def Op.hitOf : Op → Option (CellCode × Nat)
  | .hit cc pos => some (cc, pos)
  | _ => none

theorem cells_foldl_apply (ops : List Op) (cts : Counts) :
    (ops.foldl Counts.apply cts).cells = applyHits (ops.filterMap Op.hitOf) cts.cells := by
  induction ops generalizing cts with
  | nil => rfl
  | cons op t ih =>
    cases op <;>
      simp [List.foldl_cons, Counts.apply, Op.hitOf, List.filterMap_cons, ih, applyHits]

/-- C9: permuting the sequence of recorded outcomes leaves the summary mapping
(at any threshold, for any reference index) unchanged: each hit is a commutative
increment of one (cell, reference) counter. -/
theorem summary_perm_invariant (ops ops' : List Op) (hp : List.Perm ops ops')
    (min_reads r : Nat) :
    lookupA (((Counts.applyAll ops).cells).summary min_reads) r =
      lookupA (((Counts.applyAll ops').cells).summary min_reads) r := by
  rw [Counts.applyAll, Counts.applyAll, cells_foldl_apply, cells_foldl_apply]
  show lookupA ((applyHits (ops.filterMap Op.hitOf) []).summary min_reads) r =
    lookupA ((applyHits (ops'.filterMap Op.hitOf) []).summary min_reads) r
  rw [lookupA_summary_applyHits, lookupA_summary_applyHits]
  have hperm : List.Perm (ops.filterMap Op.hitOf) (ops'.filterMap Op.hitOf) :=
    hp.filterMap _
  have hP : (fun c => decide (min_reads < occCount (ops'.filterMap Op.hitOf) (c, r))) =
      (fun c => decide (min_reads < occCount (ops.filterMap Op.hitOf) (c, r))) := by
    funext c
    rw [occCount_perm hperm (c, r)]
  have hF : (fun c => occCount (ops'.filterMap Op.hitOf) (c, r)) =
      (fun c => occCount (ops.filterMap Op.hitOf) (c, r)) := by
    funext c
    rw [occCount_perm hperm (c, r)]
  rw [hP, hF]
  have hdperm : List.Perm
      (((ops.filterMap Op.hitOf).map Prod.fst).dedup)
      (((ops'.filterMap Op.hitOf).map Prod.fst).dedup) :=
    (hperm.map _).dedup
  have hqperm : List.Perm
      ((((ops.filterMap Op.hitOf).map Prod.fst).dedup).filter
        (fun c => decide (min_reads < occCount (ops.filterMap Op.hitOf) (c, r))))
      ((((ops'.filterMap Op.hitOf).map Prod.fst).dedup).filter
        (fun c => decide (min_reads < occCount (ops.filterMap Op.hitOf) (c, r)))) :=
    hdperm.filter _
  rw [isEmpty_eq_decide_length, isEmpty_eq_decide_length, hqperm.length_eq,
    (hqperm.map (fun c => occCount (ops.filterMap Op.hitOf) (c, r))).sum_eq]

/-- Witness for C9: swapping a hit and a no-hit outcome yields the same summary
lookup. -/
theorem summary_perm_invariant_witness :
    List.Perm [Op.hit [0] 0, Op.nohit] [Op.nohit, Op.hit [0] 0] ∧
      lookupA (((Counts.applyAll [Op.hit [0] 0, Op.nohit]).cells).summary 0) 0 =
        lookupA (((Counts.applyAll [Op.nohit, Op.hit [0] 0]).cells).summary 0) 0 :=
  ⟨by decide, summary_perm_invariant [Op.hit [0] 0, Op.nohit] [Op.nohit, Op.hit [0] 0]
    (by decide) 0 0⟩

/-- The `passes` helper of counts.rs lines 234-242, verbatim:
`count > min_reads && (cells >= min_cells || reads_per_cell.map_or(true, |r| count / cells > r))`. -/
def passes (count cells min_reads min_cells : Nat) (reads_per_cell : Option Nat) : Bool :=
  decide (min_reads < count) &&
    (decide (min_cells ≤ cells) ||
      (match reads_per_cell with
       | none => true
       | some r => decide (r < count / cells)))

/-- The filter as the spec words it (§4.2 `filter`): a conjunction of all three
clauses, the reads-per-cell clause vacuously true when no floor is configured. -/
def passesSpec (count cells min_reads min_cells : Nat) (reads_per_cell : Option Nat) : Bool :=
  decide (min_cells ≤ cells) && decide (min_reads < count) &&
    (match reads_per_cell with
     | none => true
     | some r => decide (r < count / cells))

/-- C1: the claim fails on the code. With no reads-per-cell floor configured,
`passes` reduces to `count > min_reads` alone: at `count = 10`, `cells = 1`,
`min_reads = 5`, `min_cells = 2` (so `cells = min_cells - 1`) the code accepts the
row while the spec's conjunctive filter rejects it. The `||` in counts.rs line 241
makes `min_cells` inoperative whenever `reads_per_cell` is `None`, contradicting the
CLI documentation of `--min-cells` ("Only output the barcodes that are found in
more than <C> cells"). -/
theorem passes_ignores_min_cells_without_rpc :
    passes 10 1 5 2 Option.none = true ∧ passesSpec 10 1 5 2 Option.none = false := by
  constructor <;> rfl

/-- A reference panel row: the record's fields, each a byte string. -/
abbrev Record := List (List Nat)

/-- The byte string of an ASCII string literal. -/
def bs (s : String) : List Nat := s.toList.map Char.toNat

/-- The six-column header `id,name,read,pattern,sequence,feature_type`. -/
def hdr6 : Record :=
  [bs "id", bs "name", bs "read", bs "pattern", bs "sequence", bs "feature_type"]

/-- What `header.as_slice()` is compared against in barcodes.rs line 39: the
concatenation of the expected header's fields. -/
def expectedHeaderCat : List Nat := bs "idnamereadpatternsequencefeature_type"

def headerErrMsg : String :=
  "Header error: Expected header: id,name,read,pattern,sequence,feature_type"

def barcodeColErrMsg : String := "Expected barcode in column 5"

def barcodeLenErrMsg : String := "Barcode length not equal to 15"

/-- Parsing one record's barcode: field index 4 (column 5), converted to a
`[u8; BCLENGTH]` (barcodes.rs lines 52-65); errors on a missing field or on any
length other than `BCLENGTH`. -/
def parseRow (r : Record) : Except String Barcode :=
  match r.get? 4 with
  | none => .error barcodeColErrMsg
  | some f => if f.length = BCLENGTH then .ok f else .error barcodeLenErrMsg

/-- The record loop of `Barcodes::from_csv` (barcodes.rs lines 47-69): push each
record, insert its barcode keyed to its position, abort on the first bad row. -/
def loadLoop : List Record → Nat → List Record → List (Barcode × Nat) →
    Except String (List Record × List (Barcode × Nat))
  | [], _, records, barcodes => .ok (records, barcodes)
  | r :: t, pos, records, barcodes =>
    match parseRow r with
    | .error e => .error e
    | .ok b => loadLoop t (pos + 1) (records ++ [r]) (insertA barcodes b pos)

/-- The `Barcodes` struct of barcodes.rs lines 16-21; `tree` holds the BK-tree's
contents. -/
structure Barcodes where
  records : List Record
  header : Record
  barcodes : List (Barcode × Nat)
  tree : List Barcode
deriving DecidableEq

/-- `Barcodes::from_csv` (barcodes.rs lines 30-80) over already-split rows: the
header is accepted iff the concatenation of its fields (`as_slice`) equals the
expected concatenation; then the record loop runs, and the BK-tree is filled with
the exact-match map's keys. -/
def fromRows (header : Record) (rows : List Record) : Except String Barcodes :=
  if header.flatten = expectedHeaderCat then
    match loadLoop rows 0 [] [] with
    | .error e => .error e
    | .ok (records, barcodes) => .ok ⟨records, header, barcodes, barcodes.map Prod.fst⟩
  else .error headerErrMsg

/-- Levenshtein distance with unit costs, the metric of
`triple_accel::levenshtein_exp` used for the BK-tree (barcodes.rs lines 12-14). -/
def lev : List Nat → List Nat → Nat
  | [], ys => ys.length
  | x :: xs, [] => (x :: xs).length
  | x :: xs, y :: ys =>
    if x = y then lev xs ys
    else 1 + min (lev xs (y :: ys)) (min (lev (x :: xs) ys) (lev xs ys))
termination_by xs ys => xs.length + ys.length

/-- The `MatchResult` enum of barcodes.rs lines 22-27. -/
inductive MatchResult where
  | NoHit
  | Multiple
  | Unique (i : Nat)
  | Dist (i : Nat) (d : Nat)
deriving DecidableEq

/-- `BkTree::find(query, 2)`: every stored value within the tolerance, paired
with its distance to the query. -/
def bkFind (tree : List Barcode) (q : Barcode) (tol : Nat) : List (Barcode × Nat) :=
  tree.filterMap (fun b => if lev b q ≤ tol then some (b, lev b q) else none)

/-- `Barcodes::find` (barcodes.rs lines 82-95). The `none` fallback in the
single-hit branch stands for the `unwrap` there; it cannot be reached for an
index built by `fromRows`, since every tree element is a key of the map. -/
def Barcodes.find (B : Barcodes) (s : Barcode) (approximate : Bool) : MatchResult :=
  match lookupA B.barcodes s with
  | some i => .Unique i
  | none =>
    if approximate then
      match bkFind B.tree s 2 with
      | [] => .NoHit
      | [hit] =>
        match lookupA B.barcodes hit.1 with
        | some i => .Dist i hit.2
        | none => .NoHit
      | _ => .Multiple
    else .NoHit

theorem parseRow_error_msgs (r : Record) (e : String) (h : parseRow r = .error e) :
    e = barcodeColErrMsg ∨ e = barcodeLenErrMsg := by
  rcases hg : r.get? 4 with _ | f
  · simp only [parseRow, hg] at h
    injection h with h
    exact Or.inl h.symm
  · simp only [parseRow, hg] at h
    by_cases hl : f.length = BCLENGTH
    · rw [if_pos hl] at h
      cases h
    · rw [if_neg hl] at h
      injection h with h
      exact Or.inr h.symm

theorem loadLoop_error_msgs (rows : List Record) (pos : Nat) (recs : List Record)
    (bcs : List (Barcode × Nat)) (e : String)
    (h : loadLoop rows pos recs bcs = .error e) :
    e = barcodeColErrMsg ∨ e = barcodeLenErrMsg := by
  induction rows generalizing pos recs bcs with
  | nil => cases h
  | cons r0 t ih =>
    rw [loadLoop] at h
    rcases hp : parseRow r0 with e0 | b0
    · rw [hp] at h
      injection h with h
      exact h ▸ parseRow_error_msgs r0 e0 hp
    · rw [hp] at h
      exact ih (pos + 1) (recs ++ [r0]) (insertA bcs b0 pos) h

theorem loadLoop_not_ok_of_badrow (rows : List Record) (pos : Nat) (recs : List Record)
    (bcs : List (Barcode × Nat)) (r : Record) (e : String)
    (hr : r ∈ rows) (hp : parseRow r = .error e) :
    (loadLoop rows pos recs bcs).isOk = false := by
  induction rows generalizing pos recs bcs with
  | nil => cases hr
  | cons r0 t ih =>
    rw [loadLoop]
    rcases hp0 : parseRow r0 with e0 | b0
    · rfl
    · rcases List.mem_cons.mp hr with h | h
      · subst h
        rw [hp0] at hp
        cases hp
      · exact ih (pos + 1) (recs ++ [r0]) (insertA bcs b0 pos) h

/-- C7: any row whose barcode field (column 5) does not have exactly `BCLENGTH`
bytes makes the whole load fail: `from_csv` returns an error and no `Barcodes`
value — partial or not — is produced. -/
theorem wrong_length_barcode_aborts (header : Record) (rows : List Record)
    (r : Record) (f : List Nat)
    (hr : r ∈ rows) (hf : r.get? 4 = some f) (hlen : f.length ≠ BCLENGTH) :
    (fromRows header rows).isOk = false := by
  have hp : parseRow r = .error barcodeLenErrMsg := by
    simp only [parseRow, hf]
    rw [if_neg hlen]
  rw [fromRows]
  by_cases hh : header.flatten = expectedHeaderCat
  · rw [if_pos hh]
    have hbad := loadLoop_not_ok_of_badrow rows 0 [] [] r barcodeLenErrMsg hr hp
    rcases hl : loadLoop rows 0 [] [] with e | p
    · rfl
    · rw [hl] at hbad
      cases hbad
  · rw [if_neg hh]
    rfl

/-- A well-formed panel row whose barcode field has 3 bytes instead of 15. -/
def rowBad : Record := [bs "i1", bs "n", bs "R2", bs "5P", bs "seq", bs "Ab"]

/-- Witness for C7: loading a panel whose single row has a 3-byte barcode field
fails. -/
theorem wrong_length_barcode_aborts_witness :
    rowBad ∈ [rowBad] ∧ rowBad.get? 4 = some (bs "seq") ∧ (bs "seq").length ≠ BCLENGTH ∧
      (fromRows hdr6 [rowBad]).isOk = false :=
  ⟨by decide, by decide, by decide,
    wrong_length_barcode_aborts hdr6 [rowBad] rowBad (bs "seq")
      (by decide) (by decide) (by decide)⟩

/-- C6 counterexample: a header consisting of one single field holding the whole
string `idnamereadpatternsequencefeature_type` is not the six-column schema, yet
the load is accepted, because barcodes.rs line 39 compares `header.as_slice()`,
the concatenation of the fields with the boundaries removed. -/
theorem header_concat_collision :
    (fromRows [expectedHeaderCat] []).isOk = true ∧ ([expectedHeaderCat] : Record) ≠ hdr6 := by
  constructor
  · rfl
  · decide

/-- C6 amended: the load is rejected with the header error iff the concatenation
of the header's fields differs from `idnamereadpatternsequencefeature_type`; the
exact six-column header passes the check, but so does any other splitting with the
same concatenation. -/
theorem header_check_iff_concat (header : Record) (rows : List Record) :
    fromRows header rows = .error headerErrMsg ↔ header.flatten ≠ expectedHeaderCat := by
  constructor
  · intro h hc
    rw [fromRows, if_pos hc] at h
    rcases hl : loadLoop rows 0 [] [] with e | p
    · rw [hl] at h
      injection h with h
      rcases loadLoop_error_msgs rows 0 [] [] e hl with he | he <;>
        · subst he
          exact absurd h (by decide)
    · rw [hl] at h
      cases h
  · intro h
    rw [fromRows, if_neg h]

theorem lookupA_insertA {K V : Type} [DecidableEq K]
    (m : List (K × V)) (k : K) (v : V) (k' : K) :
    lookupA (insertA m k v) k' = if k = k' then some v else lookupA m k' := by
  induction m with
  | nil => by_cases h : k = k' <;> simp [insertA, lookupA, h]
  | cons head t ih =>
    obtain ⟨k0, v0⟩ := head
    by_cases h0 : k0 = k
    · subst h0
      by_cases h : k0 = k' <;> simp [insertA, lookupA, h]
    · by_cases h : k0 = k'
      · have hkk : ¬k = k' := fun hh => h0 (h.trans hh.symm)
        have hkk2 : ¬k' = k := fun hh => hkk hh.symm
        simp [insertA, lookupA, h0, h, hkk, hkk2]
      · simp [insertA, lookupA, h0, h, ih]

theorem loadLoop_lookup_preserved (rows : List Record) (pos : Nat) (recs : List Record)
    (bcs : List (Barcode × Nat)) (recs' : List Record) (bcs' : List (Barcode × Nat))
    (b : Barcode)
    (hok : loadLoop rows pos recs bcs = .ok (recs', bcs'))
    (hno : ∀ r ∈ rows, parseRow r ≠ .ok b) :
    lookupA bcs' b = lookupA bcs b := by
  induction rows generalizing pos recs bcs with
  | nil =>
    rw [loadLoop] at hok
    injection hok with hok
    injection hok with h1 h2
    rw [h2]
  | cons r0 t ih =>
    rw [loadLoop] at hok
    rcases hp0 : parseRow r0 with e0 | b0
    · rw [hp0] at hok
      cases hok
    · rw [hp0] at hok
      have hb0 : ¬b0 = b := fun h => hno r0 (List.mem_cons_self r0 t) (h ▸ hp0)
      rw [ih (pos + 1) (recs ++ [r0]) (insertA bcs b0 pos) hok
        (fun r hr => hno r (List.mem_cons_of_mem r0 hr)), lookupA_insertA, if_neg hb0]

theorem loadLoop_lookup_last (rows : List Record) (pos : Nat) (recs : List Record)
    (bcs : List (Barcode × Nat)) (recs' : List Record) (bcs' : List (Barcode × Nat))
    (i : Nat) (ri : Record) (b : Barcode)
    (hok : loadLoop rows pos recs bcs = .ok (recs', bcs'))
    (hri : rows.get? i = some ri)
    (hparse : parseRow ri = .ok b)
    (hlast : ∀ j rj, i < j → rows.get? j = some rj → parseRow rj ≠ .ok b) :
    lookupA bcs' b = some (pos + i) := by
  induction rows generalizing pos recs bcs i with
  | nil => simp [List.get?] at hri
  | cons r0 t ih =>
    rw [loadLoop] at hok
    rcases hp0 : parseRow r0 with e0 | b0
    · rw [hp0] at hok
      cases hok
    · rw [hp0] at hok
      cases i with
      | zero =>
        have hr0 : r0 = ri := by
          have : some r0 = some ri := by simpa [List.get?] using hri
          injection this
        have hb : b0 = b := by
          rw [hr0, hparse] at hp0
          injection hp0 with h
          exact h.symm
        subst hb
        have hnone : ∀ r' ∈ t, parseRow r' ≠ .ok b0 := by
          intro r' hr' hpe
          obtain ⟨j, hj⟩ := List.get?_of_mem hr'
          exact hlast (j + 1) r' (Nat.succ_pos j) (by simpa [List.get?] using hj) hpe
        rw [loadLoop_lookup_preserved t (pos + 1) (recs ++ [r0]) (insertA bcs b0 pos)
          recs' bcs' b0 hok hnone, lookupA_insertA, if_pos rfl, Nat.add_zero]
      | succ i' =>
        have hri' : t.get? i' = some ri := by simpa [List.get?] using hri
        have hlast' : ∀ j rj, i' < j → t.get? j = some rj → parseRow rj ≠ .ok b := by
          intro j rj hj hget
          exact hlast (j + 1) rj (by omega) (by simpa [List.get?] using hget)
        rw [ih (pos + 1) (recs ++ [r0]) (insertA bcs b0 pos) i' hok hri' hlast']
        congr 1
        omega

/-- C5: a barcode loaded from the panel resolves exactly, in both modes, to the
index its panel entry was loaded at (the hypothesis `hlast` pins that entry as the
map's entry for the value: no later row carries the same barcode); and a query
with no exact match resolves to `NoHit` when approximate matching is off, without
consulting the BK-tree. -/
theorem find_exact_and_nohit (header : Record) (rows : List Record) (B : Barcodes)
    (i : Nat) (ri : Record) (r q : Barcode)
    (hB : fromRows header rows = .ok B)
    (hri : rows.get? i = some ri)
    (hparse : parseRow ri = .ok r)
    (hlast : ∀ j rj, i < j → rows.get? j = some rj → parseRow rj ≠ .ok r)
    (hq : lookupA B.barcodes q = none) :
    B.find r false = .Unique i ∧ B.find r true = .Unique i ∧ B.find q false = .NoHit := by
  rw [fromRows] at hB
  by_cases hh : header.flatten = expectedHeaderCat
  · rw [if_pos hh] at hB
    rcases hl : loadLoop rows 0 [] [] with e | p
    · rw [hl] at hB
      cases hB
    · rw [hl] at hB
      obtain ⟨recs, bcs⟩ := p
      injection hB with hB
      have hlook : lookupA bcs r = some (0 + i) :=
        loadLoop_lookup_last rows 0 [] [] recs bcs i ri r hl hri hparse hlast
      rw [Nat.zero_add] at hlook
      have hBbc : B.barcodes = bcs := by rw [← hB]
      refine ⟨?_, ?_, ?_⟩
      · simp only [Barcodes.find, hBbc, hlook]
      · simp only [Barcodes.find, hBbc, hlook]
      · simp [Barcodes.find, hq]
  · rw [if_neg hh] at hB
    cases hB

/-- A well-formed panel row with the 15-byte barcode `AAAAAAAAAAAAAAA`. -/
def rowA : Record := [bs "id1", bs "n1", bs "R2", bs "5P", bs "AAAAAAAAAAAAAAA", bs "Ab"]

/-- The barcode of `rowA`. -/
def bcA : Barcode := bs "AAAAAAAAAAAAAAA"

/-- The `Barcodes` value built from the one-row panel `[rowA]`. -/
def barcodesA : Barcodes := ⟨[rowA], hdr6, [(bcA, 0)], [bcA]⟩

/-- Witness for C5 on the one-row panel: its barcode resolves to index 0 in both
modes, and a 15-byte query that is not in the panel gives `NoHit` in exact-only
mode. -/
theorem find_exact_and_nohit_witness :
    fromRows hdr6 [rowA] = .ok barcodesA ∧
      (barcodesA.find bcA false = .Unique 0 ∧ barcodesA.find bcA true = .Unique 0 ∧
        barcodesA.find (bs "TTTTTTTTTTTTTTT") false = .NoHit) :=
  ⟨by rfl,
    find_exact_and_nohit hdr6 [rowA] barcodesA 0 rowA bcA (bs "TTTTTTTTTTTTTTT")
      (by rfl) (by rfl) (by rfl)
      (by
        intro j rj hj hget
        cases j with
        | zero => omega
        | succ n => simp [List.get?] at hget)
      (by rfl)⟩

theorem bkFind_eq_filter (tree : List Barcode) (q : Barcode) (tol : Nat) :
    bkFind tree q tol =
      (tree.filter (fun b => decide (lev b q ≤ tol))).map (fun b => (b, lev b q)) := by
  induction tree with
  | nil => rfl
  | cons b t ih =>
    simp only [bkFind] at ih ⊢
    by_cases h : lev b q ≤ tol <;>
      simp [List.filterMap_cons, List.filter_cons, h, ih]

theorem lookupA_isSome_of_mem_keys {K V : Type} [DecidableEq K]
    (m : List (K × V)) (k : K) (h : k ∈ m.map Prod.fst) :
    ∃ v, lookupA m k = some v := by
  induction m with
  | nil => cases h
  | cons head t ih =>
    obtain ⟨k0, v0⟩ := head
    by_cases hk : k0 = k
    · exact ⟨v0, by simp [lookupA, hk]⟩
    · simp only [List.map_cons, List.mem_cons] at h
      rcases h with h1 | h1
      · exact absurd h1.symm hk
      · obtain ⟨v, hv⟩ := ih h1
        exact ⟨v, by simp [lookupA, hk, hv]⟩

theorem fromRows_tree_eq_keys (header : Record) (rows : List Record) (B : Barcodes)
    (hB : fromRows header rows = .ok B) :
    B.tree = B.barcodes.map Prod.fst := by
  rw [fromRows] at hB
  by_cases hh : header.flatten = expectedHeaderCat
  · rw [if_pos hh] at hB
    rcases hl : loadLoop rows 0 [] [] with e | p
    · rw [hl] at hB
      cases hB
    · rw [hl] at hB
      obtain ⟨recs, bcs⟩ := p
      injection hB with hB
      rw [← hB]
  · rw [if_neg hh] at hB
    cases hB

/-- C4: with approximate matching on and no exact hit, the outcome is determined
solely by the number of distinct panel barcode values within Levenshtein distance
2 of the query: none gives `NoHit`, exactly one gives `Dist` carrying that value's
panel index and its Levenshtein distance to the query, two or more give
`Multiple` regardless of their distances. -/
theorem find_approx_cases (header : Record) (rows : List Record) (B : Barcodes)
    (q : Barcode)
    (hB : fromRows header rows = .ok B)
    (hq : lookupA B.barcodes q = none) :
    (B.tree.filter (fun b => decide (lev b q ≤ 2)) = [] → B.find q true = .NoHit) ∧
    (∀ b, B.tree.filter (fun b => decide (lev b q ≤ 2)) = [b] →
      ∃ i, lookupA B.barcodes b = some i ∧ B.find q true = .Dist i (lev b q)) ∧
    (2 ≤ (B.tree.filter (fun b => decide (lev b q ≤ 2))).length →
      B.find q true = .Multiple) := by
  have htree := fromRows_tree_eq_keys header rows B hB
  refine ⟨?_, ?_, ?_⟩
  · intro hnil
    simp [Barcodes.find, hq, bkFind_eq_filter, hnil]
  · intro b hb
    have hbtree : b ∈ B.tree := by
      have : b ∈ B.tree.filter (fun b => decide (lev b q ≤ 2)) := by
        rw [hb]
        exact List.mem_singleton.mpr rfl
      exact List.mem_of_mem_filter this
    obtain ⟨i, hi⟩ := lookupA_isSome_of_mem_keys B.barcodes b (htree ▸ hbtree)
    refine ⟨i, hi, ?_⟩
    simp [Barcodes.find, hq, bkFind_eq_filter, hb, hi]
  · intro hlen
    rcases hsh : B.tree.filter (fun b => decide (lev b q ≤ 2)) with _ | ⟨b1, tl⟩
    · rw [hsh] at hlen
      simp at hlen
    · rcases tl with _ | ⟨b2, tl2⟩
      · rw [hsh] at hlen
        simp at hlen
      · simp [Barcodes.find, hq, bkFind_eq_filter, hsh]

/-- The `Barcodes` value of an empty panel. -/
def barcodesEmpty : Barcodes := ⟨[], hdr6, [], []⟩

/-- Witness for C4 on the empty panel: no candidate within distance 2, so the
approximate path reports `NoHit`. -/
theorem find_approx_cases_witness :
    fromRows hdr6 [] = .ok barcodesEmpty ∧
      barcodesEmpty.tree.filter (fun b => decide (lev b bcA ≤ 2)) = [] ∧
      barcodesEmpty.find bcA true = .NoHit :=
  ⟨by rfl, by rfl,
    (find_approx_cases hdr6 [] barcodesEmpty bcA (by rfl) (by rfl)).1 (by rfl)⟩

theorem mem_insertA {K V : Type} [DecidableEq K]
    (m : List (K × V)) (k : K) (v : V) (e : K × V)
    (h : e ∈ insertA m k v) : e ∈ m ∨ e = (k, v) := by
  induction m with
  | nil =>
    simp only [insertA, List.mem_singleton] at h
    exact Or.inr h
  | cons head t ih =>
    obtain ⟨k0, v0⟩ := head
    simp only [insertA] at h
    by_cases hk : k0 = k
    · rw [if_pos hk] at h
      rcases List.mem_cons.mp h with h1 | h1
      · exact Or.inr h1
      · exact Or.inl (List.mem_cons_of_mem _ h1)
    · rw [if_neg hk] at h
      rcases List.mem_cons.mp h with h1 | h1
      · exact Or.inl (h1 ▸ List.mem_cons_self _ _)
      · rcases ih h1 with h2 | h2
        · exact Or.inl (List.mem_cons_of_mem _ h2)
        · exact Or.inr h2

theorem loadLoop_values_lt (rows : List Record) (pos : Nat) (recs : List Record)
    (bcs : List (Barcode × Nat)) (recs' : List Record) (bcs' : List (Barcode × Nat))
    (hok : loadLoop rows pos recs bcs = .ok (recs', bcs'))
    (hpos : pos = recs.length)
    (hbound : ∀ e ∈ bcs, e.2 < pos) :
    ∀ e ∈ bcs', e.2 < recs'.length := by
  induction rows generalizing pos recs bcs with
  | nil =>
    rw [loadLoop] at hok
    injection hok with hok
    injection hok with h1 h2
    subst h1
    subst h2
    intro e he
    have := hbound e he
    omega
  | cons r0 t ih =>
    rw [loadLoop] at hok
    rcases hp0 : parseRow r0 with e0 | b0
    · rw [hp0] at hok
      cases hok
    · rw [hp0] at hok
      refine ih (pos + 1) (recs ++ [r0]) (insertA bcs b0 pos) hok (by simp [hpos]) ?_
      intro e he
      rcases mem_insertA bcs b0 pos e he with h1 | h1
      · exact Nat.lt_succ_of_lt (hbound e h1)
      · rw [h1]
        omega

theorem fromRows_barcode_index_lt (header : Record) (rows : List Record) (B : Barcodes)
    (hB : fromRows header rows = .ok B) :
    ∀ e ∈ B.barcodes, e.2 < B.records.length := by
  rw [fromRows] at hB
  by_cases hh : header.flatten = expectedHeaderCat
  · rw [if_pos hh] at hB
    rcases hl : loadLoop rows 0 [] [] with e | p
    · rw [hl] at hB
      cases hB
    · rw [hl] at hB
      obtain ⟨recs, bcs⟩ := p
      injection hB with hB
      have hv := loadLoop_values_lt rows 0 [] [] recs bcs hl rfl
        (by intro e he; cases he)
      rw [← hB]
      exact hv
  · rw [if_neg hh] at hB
    cases hB

theorem lookupA_mem {K V : Type} [DecidableEq K]
    (m : List (K × V)) (k : K) (v : V) (h : lookupA m k = some v) : (k, v) ∈ m := by
  induction m with
  | nil => cases h
  | cons head t ih =>
    obtain ⟨k0, v0⟩ := head
    simp only [lookupA] at h
    by_cases hk : k0 = k
    · rw [if_pos hk] at h
      injection h with h
      subst hk
      subst h
      exact List.mem_cons_self _ _
    · rw [if_neg hk] at h
      exact List.mem_cons_of_mem _ (ih h)

theorem find_unique_inv (B : Barcodes) (q : Barcode) (approx : Bool) (i : Nat)
    (h : B.find q approx = .Unique i) : lookupA B.barcodes q = some i := by
  simp only [Barcodes.find] at h
  split at h
  next j hj =>
    injection h with h
    rw [hj, h]
  next hq =>
    split at h
    · split at h
      · cases h
      · split at h
        · cases h
        · cases h
      · cases h
    · cases h

theorem find_dist_inv (B : Barcodes) (q : Barcode) (approx : Bool) (i d : Nat)
    (h : B.find q approx = .Dist i d) : ∃ b, lookupA B.barcodes b = some i := by
  simp only [Barcodes.find] at h
  split at h
  next j hj => cases h
  next hq =>
    split at h
    · split at h
      · cases h
      · next hit hbk =>
        split at h
        next j0 hl0 =>
          injection h with hji hd
          exact ⟨hit.1, by rw [hl0, hji]⟩
        next hl0 => cases h
      · cases h
    · cases h

/-- C8: any index carried in a `Unique` or `Dist` (approximate-hit) outcome of a
`find` on an index built by `from_csv` is strictly below the number of panel
records: the resolver never returns an index outside the panel. -/
theorem find_index_lt_records (header : Record) (rows : List Record) (B : Barcodes)
    (q : Barcode) (approx : Bool) (i d : Nat)
    (hB : fromRows header rows = .ok B)
    (hres : B.find q approx = .Unique i ∨ B.find q approx = .Dist i d) :
    i < B.records.length := by
  have hval := fromRows_barcode_index_lt header rows B hB
  rcases hres with h | h
  · exact hval (q, i) (lookupA_mem B.barcodes q i (find_unique_inv B q approx i h))
  · obtain ⟨b, hb⟩ := find_dist_inv B q approx i d h
    exact hval (b, i) (lookupA_mem B.barcodes b i hb)

/-- Witness for C8: on the one-row panel, the exact hit returns index 0, which is
below the record count 1. -/
theorem find_index_lt_records_witness :
    fromRows hdr6 [rowA] = .ok barcodesA ∧
      barcodesA.find bcA false = .Unique 0 ∧ 0 < barcodesA.records.length :=
  ⟨by rfl, by rfl,
    find_index_lt_records hdr6 [rowA] barcodesA bcA false 0 0 (by rfl)
      (Or.inl (by rfl))⟩

/-- Lexicographic byte-string order: the order `&str`'s `Ord` gives
`sort_by_key`. -/
def lexLt : List Nat → List Nat → Bool
  | [], [] => false
  | [], _ :: _ => true
  | _ :: _, [] => false
  | x :: xs, y :: ys => if x < y then true else if y < x then false else lexLt xs ys

/-- Stable insertion for the sort by id key. -/
def insertByKey (key : Nat → List Nat) (a : Nat) : List Nat → List Nat
  | [] => [a]
  | b :: t => if lexLt (key b) (key a) then b :: insertByKey key a t else a :: b :: t

/-- `positions.sort_by_key(|&e| self.records[e].get(0).unwrap())`
(barcodes.rs line 101): a stable sort of the positions by each record's id
field. -/
def sortByKey (key : Nat → List Nat) (l : List Nat) : List Nat :=
  l.foldr (insertByKey key) []

/-- `Barcodes::write_csv` (barcodes.rs lines 97-108) as the rows it writes: the
original header, then the selected records in id order. The `getD`/`headD`
defaults stand for the indexing and `unwrap` there, unreachable for positions
produced by the summary. -/
def Barcodes.write_csv_rows (B : Barcodes) (list : List Nat) : List Record :=
  let positions := sortByKey (fun pos => ((B.records.get? pos).getD []).headD []) list
  B.header :: positions.map (fun pos => (B.records.get? pos).getD [])

/-- `Summary::write_csv` (counts.rs lines 212-230): summarize at `min_reads`,
keep the entries accepted by `passes`, and hand their positions to
`Barcodes::write_csv`. -/
def Summary.write_csv_rows (B : Barcodes) (cells : CellCounts Nat)
    (min_reads min_cells : Nat) (reads_per_cell : Option Nat) : List Record :=
  B.write_csv_rows
    (((cells.summary min_reads).filter
        (fun e => passes e.2.1 e.2.2 min_reads min_cells reads_per_cell)).map Prod.fst)

/-- The threshold part of the clap `Config` of main.rs. -/
structure Config where
  min_reads : Nat
  min_cells : Nat
  reads_per_cell : Option Nat

/-- The output call of main.rs line 164 with its argument order exactly as
written there: `summary.write_csv(f, config.min_cells, config.min_reads,
config.reads_per_cell)` — note `min_cells` and `min_reads` land in each other's
parameter. -/
def mainWriteCsvRows (cfg : Config) (B : Barcodes) (cells : CellCounts Nat) :
    List Record :=
  Summary.write_csv_rows B cells cfg.min_cells cfg.min_reads cfg.reads_per_cell

/-- C2: the claim fails on the code. main.rs line 164 passes `config.min_cells`
and `config.min_reads` to `Summary::write_csv` in swapped positions (the
signature is `write_csv(w, min_reads, min_cells, reads_per_cell)`). With
`min_reads = 10`, `min_cells = 1`, no reads-per-cell floor, a panel of one record
and a single cell holding 5 reads of it, the program writes the record (it
summarizes at threshold 1), while the CSV described by the claim — summarized at
the configured `min_reads = 10` and filtered with the configured values — holds
the header only. -/
theorem write_csv_swapped_thresholds :
    mainWriteCsvRows ⟨10, 1, Option.none⟩ barcodesA [([0], [(0, 5)])] = [hdr6, rowA] ∧
      Summary.write_csv_rows barcodesA [([0], [(0, 5)])] 10 1 Option.none = [hdr6] := by
  constructor
  · rfl
  · rfl
